import Mathlib

/-!
Verification of the rgb-matrix-pi input-acquisition core: a shallow embedding
of `hid_listener.py`, `stdin_listener.py` and `stdin_proxy.py`, with theorems
about edge alternation, key-state queries, error handling, device discovery,
report decoding, escape-sequence timeouts and the relay transport.

Python `dict`s keyed by strings are modelled as association lists
(`List (String × α)`) with Python semantics: `get(k, dflt)` scans for the key,
assignment replaces the value when the key is present and appends otherwise.
`time.time()` values are modelled as rationals.
-/

/-- Python `d.get(k, dflt)` on a string-keyed dict modelled as an assoc list. -/
def dictGet (l : List (String × α)) (dflt : α) (k : String) : α :=
  match l.find? (fun p => p.1 = k) with
  | some p => p.2
  | none => dflt

/-- Python `d[k] = v`: replace the binding when the key is present,
append a new binding otherwise. -/
def dictSet (l : List (String × α)) (k : String) (v : α) : List (String × α) :=
  if l.any (fun p => p.1 = k) then
    l.map (fun p => if p.1 = k then (p.1, v) else p)
  else
    l ++ [(k, v)]

/-- The keys of a dict, in insertion order. -/
def dictDom (l : List (String × α)) : List String := l.map (fun p => p.1)

/-- The four direction names, in the order of the Python literals
`{'up': False, 'down': False, 'left': False, 'right': False}`. -/
def dirList : List String := ["up", "down", "left", "right"]

/-- A decoded key transition `(key, is_down, ts)` as enqueued by both
listeners (`event_queue.put((k, True, ts))`). -/
structure KeyEvent where
  key : String
  isDown : Bool
  ts : ℚ
deriving DecidableEq, Repr

/-- The sub-stream of edges recorded for one direction: the `isDown` flags of
the events whose key is `d`, in queue order. -/
def edgesFor (evs : List KeyEvent) (d : String) : List Bool :=
  (evs.filter (fun e => e.key = d)).map (fun e => e.isDown)

/-- A Boolean edge stream alternates: no two adjacent equal flags. -/
def alternatesB : List Bool → Bool
  | [] => true
  | [_] => true
  | a :: b :: rest => (a != b) && alternatesB (b :: rest)

/-- Whether the most recent recorded edge for `d` is a down-edge
(`false` when no edge for `d` has been recorded). -/
def lastIsDown (evs : List KeyEvent) (d : String) : Bool :=
  ((edgesFor evs d).getLast?).getD false

/-- Timestamps of the down-edges recorded for `d`, in queue order. -/
def downTsFor (evs : List KeyEvent) (d : String) : List ℚ :=
  (evs.filter (fun e => e.key = d && e.isDown)).map (fun e => e.ts)

/-- Timestamp of the most recent down-edge recorded for `d`, 0 if none
(matching the `key_press_time` initial value of `0.0`). -/
def lastDownTs (evs : List KeyEvent) (d : String) : ℚ :=
  ((downTsFor evs d).getLast?).getD 0

/-- Python `is_pressed(key)`: `self.key_states.get(key, False)` — identical in both
listeners. -/
def isPressedKS (keyStates : List (String × Bool)) (k : String) : Bool :=
  dictGet keyStates false k

/-- Python `pressed_duration(key)`: `0.0` when not pressed, else
`time.time() - self.key_press_time.get(key, 0.0)` — identical in both
listeners; `now` stands for the `time.time()` call. -/
def pressedDurationKS (keyStates : List (String × Bool))
    (keyPressTime : List (String × ℚ)) (now : ℚ) (k : String) : ℚ :=
  if isPressedKS keyStates k then now - dictGet keyPressTime 0 k else 0

/-! ## HID listener (`hid_listener.py`) -/

/-- The table `USAGE_ARROW_MAP`: HID usage codes for the four arrow keys. -/
def USAGE_ARROW_MAP (u : Nat) : Option String :=
  if u = 0x52 then some "up"
  else if u = 0x51 then some "down"
  else if u = 0x4F then some "right"
  else if u = 0x50 then some "left"
  else none

/-- The inner loop `for usage in buf[start:end]` of `_run`'s decoder: skip
zero bytes, add any byte that maps to an arrow direction to the key set. -/
def addUsages (acc : Finset String) (window : List Nat) : Finset String :=
  window.foldl
    (fun a u =>
      if u = 0 then a
      else
        match USAGE_ARROW_MAP u with
        | some name => insert name a
        | none => a)
    acc

/-- The decoder of `_run`: try both offsets 0 and 1, windows `buf[2:8]` and
`buf[3:9]`, accumulating into one key set. -/
def decodeReport (buf : List Nat) : Finset String :=
  addUsages (addUsages ∅ ((buf.drop 2).take 6)) ((buf.drop 3).take 6)

/-- The mutable state of a `HIDListener` as seen by its run loop, plus the
stream of events it has enqueued. -/
structure HIDState where
  running : Bool
  errorCount : Nat
  prevKeys : Finset String
  keyStates : List (String × Bool)
  keyPressTime : List (String × ℚ)
  events : List KeyEvent
deriving DecidableEq

/-- State right after `start()`: `running = True`, fresh dicts, empty queue,
`prev_keys = set()` and `error_count = 0` at loop entry. -/
def hidInit : HIDState :=
  { running := true
    errorCount := 0
    prevKeys := ∅
    keyStates := [("up", false), ("down", false), ("left", false), ("right", false)]
    keyPressTime := [("up", 0), ("down", 0), ("left", 0), ("right", 0)]
    events := [] }

/-- Outcome of one `self.dev.read(16, timeout_ms=100)` call. `oserror`'s flag
records whether `stop()` had already cleared `running` when the `OSError`
was handled (the shutdown-noise path). `exc` is the generic
`except Exception` handler. -/
inductive HIDRead
  | data (buf : List Nat) (ts : ℚ)
  | nodata
  | oserror (stoppedDuring : Bool)
  | exc
deriving DecidableEq

/-- Python `keys - prev_keys` (Python set difference), listed in the fixed order of
`dirList` — decoded key sets are always subsets of the four directions. -/
def edgeList (keys prev : Finset String) : List String :=
  dirList.filter (fun d => decide (d ∈ keys) && !decide (d ∈ prev))

/-- The successful-read body of `HIDListener._run`: reset the error counter,
decode the report, compute `down = keys - prev_keys` and `up = prev_keys -
keys`, update the key-state and press-time dicts, enqueue all down events
then all up events (one shared `ts = time.time()`), and set `prev_keys`. -/
def hidDataStep (st : HIDState) (buf : List Nat) (ts : ℚ) : HIDState :=
  let keys := decodeReport buf
  let down := edgeList keys st.prevKeys
  let up := edgeList st.prevKeys keys
  { running := st.running
    errorCount := 0
    prevKeys := keys
    keyStates :=
      up.foldl (fun a k => dictSet a k false)
        (down.foldl (fun a k => dictSet a k true) st.keyStates)
    keyPressTime := down.foldl (fun a k => dictSet a k ts) st.keyPressTime
    events := st.events ++ down.map (fun k => ⟨k, true, ts⟩)
                ++ up.map (fun k => ⟨k, false, ts⟩) }

/-- One iteration of `HIDListener._run`'s `while self.running` loop.
Python set iteration order is unspecified, so the `for k in down` /
`for k in up` loops are modelled as iterating the sym-difference sets in the
fixed order of `dirList` (decoded keys are always among the four directions);
the code emits all down events before all up events, as here. -/
def hidStep (st : HIDState) (r : HIDRead) : HIDState :=
  if st.running = false then st
  else
    match r with
    | .oserror stopped =>
        if stopped then { st with running := false }
        else
          let ec := st.errorCount + 1
          if 10 ≤ ec then { st with errorCount := ec, running := false }
          else { st with errorCount := ec }
    | .exc =>
        let ec := st.errorCount + 1
        if 10 ≤ ec then { st with errorCount := ec, running := false }
        else { st with errorCount := ec }
    | .nodata => st
    | .data buf ts =>
        if buf = [] then st
        else hidDataStep st buf ts

/-- The run loop over a whole trace of read outcomes. -/
def hidRun (rs : List HIDRead) : HIDState := rs.foldl hidStep hidInit

/-- Whether every byte of the report at indices 4 through 8 (the slots of the
two 6-key windows beyond the ambiguous indices 2 and 3) is zero or not an
arrow usage code. -/
def windowRestClean (buf : List Nat) : Bool :=
  (List.range 5).all (fun j =>
    match buf[4 + j]? with
    | some v => (v == 0) || (USAGE_ARROW_MAP v).isNone
    | none => true)

/-! ## Stdin listener (`stdin_listener.py`) -/

/-- The table `ESCAPE_MAP`: 3-character arrow escape sequences to direction names. -/
def ESCAPE_MAP (s : List Char) : Option String :=
  if s = ['\x1b', '[', 'A'] then some "up"
  else if s = ['\x1b', '[', 'B'] then some "down"
  else if s = ['\x1b', '[', 'C'] then some "right"
  else if s = ['\x1b', '[', 'D'] then some "left"
  else none

/-- The mutable state of a `StdinListener` as seen by its run loop. -/
structure StdinState where
  running : Bool
  buffer : List Char
  escStart : Option ℚ
  keyStates : List (String × Bool)
  keyPressTime : List (String × ℚ)
  lastDirection : Option String
  events : List KeyEvent
  interrupted : Bool
deriving DecidableEq

/-- State right after `start()` with the loop entered: fresh dicts, empty
buffer, no pending escape sequence. -/
def stdinInit : StdinState :=
  { running := true
    buffer := []
    escStart := none
    keyStates := [("up", false), ("down", false), ("left", false), ("right", false)]
    keyPressTime := [("up", 0), ("down", 0), ("left", 0), ("right", 0)]
    lastDirection := none
    events := []
    interrupted := false }

/-- One observation of the stdin loop: `tick t` is a `select` poll that found
no data at time `t`; `byte c t` is one character read at time `t`. -/
inductive StdinInput
  | tick (t : ℚ)
  | byte (c : Char) (t : ℚ)
deriving DecidableEq

/-- One iteration of `StdinListener._run`'s `while self.running` loop. The
two `time.time()` calls on the arrow-resolution path (`key_press_time` and
the event timestamp) are both modelled as the input's time `t`. -/
def stdinStep (st : StdinState) (i : StdinInput) : StdinState :=
  if st.running = false then st
  else
    match i with
    | .tick t =>
        match st.escStart with
        | some t0 =>
            if 1/10 < t - t0 then { st with buffer := [], escStart := none }
            else st
        | none => st
    | .byte c t =>
        if c = '\x03' then { st with running := false, interrupted := true }
        else if c = '\x1b' then { st with buffer := [c], escStart := some t }
        else
          match st.escStart with
          | none => st
          | some _ =>
              let buffer := st.buffer ++ [c]
              if buffer.length = 3 ∧ buffer[1]? = some '[' ∧
                  (buffer[2]? = some 'A' ∨ buffer[2]? = some 'B' ∨
                   buffer[2]? = some 'C' ∨ buffer[2]? = some 'D') then
                match ESCAPE_MAP buffer with
                | some key =>
                    { st with
                      buffer := []
                      escStart := none
                      keyStates := dictSet st.keyStates key true
                      keyPressTime := dictSet st.keyPressTime key t
                      lastDirection := some key
                      events := st.events ++ [⟨key, true, t⟩] }
                | none => { st with buffer := [], escStart := none }
              else if 5 < buffer.length then { st with buffer := [], escStart := none }
              else { st with buffer := buffer }

/-- The stdin run loop over a whole input trace. -/
def stdinRun (is : List StdinInput) : StdinState := is.foldl stdinStep stdinInit

/-- Continue the stdin run loop from an intermediate state. -/
def stdinRunFrom (st : StdinState) (is : List StdinInput) : StdinState :=
  is.foldl stdinStep st

/-! ## `stop()` as a trace of externally visible actions -/

/-- The externally visible actions a `stop()` implementation performs, in
order: clear the running flag, `thread.join(timeout)`, release the OS
resource (`dev.close()` for HID, `termios.tcsetattr(..., old_settings)` for
the terminal). -/
inductive StopAction
  | setRunningFalse
  | joinThread (timeoutSec : ℚ)
  | releaseResource
deriving DecidableEq

/-- Method `HIDListener.stop()`: `self.running = False`, then
`self.thread.join(timeout=1.0)`, then `self.dev.close()` inside
`try/except` (close errors swallowed). -/
def hidStopActions : List StopAction :=
  [.setRunningFalse, .joinThread 1, .releaseResource]

/-- Method `StdinListener.stop()`: `self.running = False`, then immediately
`termios.tcsetattr(sys.stdin, termios.TCSANOW, self.old_settings)` inside
`try/except` — the worker thread is never joined. -/
def stdinStopActions : List StopAction :=
  [.setRunningFalse, .releaseResource]

/-- Whether an action is a `thread.join` call. -/
def isJoinAction : StopAction → Bool
  | .joinThread _ => true
  | _ => false

/-! ## Relay sender (`stdin_proxy.py`, `StdinProxy.send`/`connect`) -/

/-- The sender's connection state: `self.sock` is either absent or one live
connection. -/
structure ProxyState where
  connected : Bool
deriving DecidableEq

/-- Constructor `StdinProxy.__init__`: `self.sock = None`. -/
def proxyInit : ProxyState := { connected := false }

/-- One `send(key, is_down)` call. `canConnect` is whether
`socket.connect(self.socket_path)` would succeed now; `sendOk` is whether
`sendall` would succeed on the live connection. Returns the new state and
whether the event was delivered. On connect failure the event is dropped
(`return`); on send failure the socket is closed and dropped
(`self.sock = None`) with no reconnect in this call. No failure propagates:
both handlers swallow the exception. -/
def proxySend (st : ProxyState) (canConnect sendOk : Bool) : ProxyState × Bool :=
  if st.connected = false then
    if canConnect = false then ({ connected := false }, false)
    else if sendOk then ({ connected := true }, true)
    else ({ connected := false }, false)
  else if sendOk then (st, true)
  else ({ connected := false }, false)

/-- A sequence of `send` calls under an environment trace of
`(canConnect, sendOk)` pairs; returns the final state and the per-send
delivered flags. -/
def proxyRun (st : ProxyState) : List (Bool × Bool) → ProxyState × List Bool
  | [] => (st, [])
  | e :: rest =>
      let (st', ok) := proxySend st e.1 e.2
      let (st'', oks) := proxyRun st' rest
      (st'', ok :: oks)

/-! ## Terminal-to-socket bridge (`stdin_proxy.py`, `StdinProxy.run`) -/

/-- The table `ESC_SEQ_MAP` in its Python 3.7+ dict iteration (insertion) order. -/
def ESC_SEQ_LIST : List (List Nat × String) :=
  [([0x1b, 0x5b, 0x41], "up"), ([0x1b, 0x5b, 0x42], "down"),
   ([0x1b, 0x5b, 0x43], "right"), ([0x1b, 0x5b, 0x44], "left")]

/-- The `for seq, name in ESC_SEQ_MAP.items(): if buf.endswith(seq)` scan. -/
def findArrow (buf : List Nat) : Option String :=
  (ESC_SEQ_LIST.find? (fun p => decide (p.1 <:+ buf))).map (fun p => p.2)

/-- Bridge loop state: the byte buffer, the list of `(key, is_down)` send
calls issued so far, and whether the loop has returned. -/
structure BridgeState where
  buf : List Nat
  sent : List (String × Bool)
  done : Bool
deriving DecidableEq

/-- State at loop entry: `buf = b''`. -/
def bridgeInit : BridgeState := { buf := [], sent := [], done := false }

/-- One iteration of `StdinProxy.run`'s read loop on byte `b`: append to the
buffer; if the buffer now ends with an arrow sequence, send down then up for
that direction and clear the buffer; afterwards, if the byte is `q` (0x71),
return from the loop. -/
def bridgeStep (st : BridgeState) (b : Nat) : BridgeState :=
  let buf := st.buf ++ [b]
  let st' :=
    match findArrow buf with
    | some name => { st with buf := [], sent := st.sent ++ [(name, true), (name, false)] }
    | none => { st with buf := buf }
  if b = 0x71 then { st' with done := true } else st'

/-- The bridge read loop over a byte stream; bytes after the loop has
returned are not consumed. -/
def bridgeRun (st : BridgeState) : List Nat → BridgeState
  | [] => st
  | b :: rest => if st.done then st else bridgeRun (bridgeStep st b) rest

/-! ## HID device discovery (`HIDListener._open`, enumeration branch) -/

/-- One descriptor returned by `hid.enumerate()`; string fields may be
absent (`None`), which `_s` maps to the empty string. -/
structure DeviceInfo where
  productString : Option String
  manufacturerString : Option String
  usagePage : Option Nat
  usage : Option Nat
  interfaceNumber : Option Int
  path : Option String
deriving DecidableEq

/-- Helper `_s(x)`: `None` (and decode failures) become `''`. -/
def sVal (o : Option String) : String := o.getD ""

/-- Substring containment, Python's `needle in hay`. -/
def strContains (hay needle : String) : Bool := decide (needle.toList <:+: hay.toList)

/-- ASCII lower-casing of one character (Python `str.lower()` restricted to
ASCII, which covers every string compared by the discovery heuristic). -/
def lowerChar (c : Char) : Char :=
  if 'A' ≤ c ∧ c ≤ 'Z' then Char.ofNat (c.toNat + 32) else c

/-- ASCII `str.lower()` of a whole string. -/
def lowerStr (s : String) : String := String.mk (s.toList.map lowerChar)

/-- The `is_keyboard` scoring of `_open`: usage page 0x01 with usage 0x06,
or "keyboard" in the lowercased product/manufacturer string, or interface
number 0/1 combined with a "logitech"/"key" string hint. -/
def looksLikeKeyboard (d : DeviceInfo) : Bool :=
  let prod := sVal d.productString
  let mfg := sVal d.manufacturerString
  (decide (d.usagePage = some 0x01) && decide (d.usage = some 0x06))
  || (strContains (lowerStr prod) "keyboard" || strContains (lowerStr mfg) "keyboard")
  || ((decide (d.interfaceNumber = some 0) || decide (d.interfaceNumber = some 1))
      && (strContains (lowerStr mfg) "logitech" || strContains (lowerStr prod) "key"))

/-- Python truthiness of the `path` field in `if is_keyboard and path`. -/
def pathTruthy : Option String → Bool
  | none => false
  | some p => !(p = "")

/-- The candidate list built by `_open`: enumeration order, keyboard-looking
descriptors with a truthy path. -/
def discoverCandidates (ds : List DeviceInfo) : List DeviceInfo :=
  ds.filter (fun d => looksLikeKeyboard d && pathTruthy d.path)

/-- The `for c in candidates: h.open_path(...)` loop: the first candidate
whose open succeeds is accepted (the probe read's content is ignored);
if none opens, `RuntimeError('No suitable HID device found')` is raised,
modelled as the error case. `opens` is the oracle for `open_path` success. -/
def openFirstCandidate (ds : List DeviceInfo) (opens : DeviceInfo → Bool) :
    Except String DeviceInfo :=
  match (discoverCandidates ds).find? opens with
  | some c => .ok c
  | none => .error "No suitable HID device found"

/-- Scoring-test descriptor 1: usage page generic-desktop (0x01) with usage
keyboard (0x06), no string hints. -/
def specD1 : DeviceInfo :=
  { productString := some "Gadget"
    manufacturerString := some "Acme"
    usagePage := some 0x01
    usage := some 0x06
    interfaceNumber := some 3
    path := some "/dev/hidraw0" }

/-- Scoring-test descriptor 2: "Keyboard" in the product string only. -/
def specD2 : DeviceInfo :=
  { productString := some "Acme Keyboard"
    manufacturerString := some "Acme"
    usagePage := some 0x01
    usage := some 0x02
    interfaceNumber := some 3
    path := some "/dev/hidraw1" }

/-- Scoring-test descriptor 3: none of the three keyboard signals. -/
def specD3 : DeviceInfo :=
  { productString := some "Mouse"
    manufacturerString := some "Acme"
    usagePage := some 0x01
    usage := some 0x02
    interfaceNumber := some 3
    path := some "/dev/hidraw2" }

/-- A sample key string that is not one of the four directions, used to
exercise totality of the key-state queries. -/
def spaceKey : String := "space"

/-! ## Run-loop invariants -/

/-- The run-loop invariant of the HID listener, relating the mutable state to
the event stream produced so far. -/
structure HIDInv (st : HIDState) : Prop where
  alt : ∀ d, alternatesB (edgesFor st.events d) = true
  prev : ∀ d, decide (d ∈ st.prevKeys) = lastIsDown st.events d
  states : ∀ d, dictGet st.keyStates false d = lastIsDown st.events d
  times : ∀ d, dictGet st.keyPressTime 0 d = lastDownTs st.events d
  domS : dictDom st.keyStates = dirList
  domT : dictDom st.keyPressTime = dirList
  keysSub : ∀ e ∈ st.events, e.key ∈ dirList
  prevSub : ∀ d ∈ st.prevKeys, d ∈ dirList

/-- The run-loop invariant of the stdin listener: only down-edges are ever
enqueued, and the dicts track the event stream. -/
structure StdinInv (st : StdinState) : Prop where
  allDown : ∀ e ∈ st.events, e.isDown = true
  states : ∀ d, dictGet st.keyStates false d = lastIsDown st.events d
  times : ∀ d, dictGet st.keyPressTime 0 d = lastDownTs st.events d
  domS : dictDom st.keyStates = dirList
  domT : dictDom st.keyPressTime = dirList
  keysSub : ∀ e ∈ st.events, e.key ∈ dirList

/-! ## Dictionary lemmas -/

theorem find_replace_same (l : List (String × α)) (k : String) (v : α) :
    (l.map (fun p => if p.1 = k then (p.1, v) else p)).find? (fun p => decide (p.1 = k))
      = (l.find? (fun p => decide (p.1 = k))).map (fun p => (p.1, v)) := by
  induction l with
  | nil => rfl
  | cons a l ih =>
    by_cases h : a.1 = k
    · simp [List.find?_cons, h]
    · simp [List.find?_cons, h, ih]

theorem find_replace_ne (l : List (String × α)) (k k' : String) (v : α) (h : k' ≠ k) :
    (l.map (fun p => if p.1 = k then (p.1, v) else p)).find? (fun p => decide (p.1 = k'))
      = l.find? (fun p => decide (p.1 = k')) := by
  induction l with
  | nil => rfl
  | cons a l ih =>
    by_cases h2 : a.1 = k'
    · have h1 : ¬ a.1 = k := fun hc => h (by rw [← h2]; exact hc)
      simp [List.find?_cons, h1, h2, h]
    · have hfst : (if a.1 = k then (a.1, v) else a).1 = a.1 := by
        by_cases h1 : a.1 = k <;> simp [h1]
      simp [List.find?_cons, hfst, h2, ih]

theorem dictGet_dictSet_same (l : List (String × α)) (dflt : α) (k : String) (v : α) :
    dictGet (dictSet l k v) dflt k = v := by
  unfold dictGet dictSet
  by_cases hany : (l.any fun p => decide (p.1 = k)) = true
  · rw [if_pos hany, find_replace_same]
    rcases hs : l.find? (fun p => decide (p.1 = k)) with _ | p
    · rcases List.any_eq_true.mp hany with ⟨p, hp, hpk⟩
      exact absurd hpk (List.find?_eq_none.mp hs p hp)
    · rw [hs]
      rfl
  · rw [if_neg hany, List.find?_append]
    have hnone : l.find? (fun p => decide (p.1 = k)) = none := by
      rw [List.find?_eq_none]
      intro p hp hc
      exact hany (List.any_eq_true.mpr ⟨p, hp, hc⟩)
    simp [hnone, List.find?_cons]

theorem dictGet_dictSet_ne (l : List (String × α)) (dflt : α) (k k' : String) (v : α)
    (h : k' ≠ k) : dictGet (dictSet l k v) dflt k' = dictGet l dflt k' := by
  unfold dictGet dictSet
  by_cases hany : (l.any fun p => decide (p.1 = k)) = true
  · rw [if_pos hany, find_replace_ne l k k' v h]
  · rw [if_neg hany, List.find?_append]
    have hkk : ¬ (k = k') := fun hc => h hc.symm
    rcases hs : l.find? (fun p => decide (p.1 = k')) with _ | p
    · simp [hs, List.find?_cons, hkk]
    · simp [hs]

theorem dictGet_not_mem (l : List (String × α)) (dflt : α) (k : String)
    (h : k ∉ dictDom l) : dictGet l dflt k = dflt := by
  unfold dictGet
  have hnone : l.find? (fun p => decide (p.1 = k)) = none := by
    rw [List.find?_eq_none]
    intro p hp hc
    refine absurd ?_ h
    simp only [dictDom, List.mem_map]
    exact ⟨p, hp, by simpa using hc⟩
  rw [hnone]

theorem dictDom_dictSet_mem (l : List (String × α)) (k : String) (v : α)
    (h : k ∈ dictDom l) : dictDom (dictSet l k v) = dictDom l := by
  unfold dictSet
  have hany : (l.any fun p => decide (p.1 = k)) = true := by
    rw [List.any_eq_true]
    simp only [dictDom, List.mem_map] at h
    obtain ⟨p, hp, hpk⟩ := h
    exact ⟨p, hp, by simpa using hpk⟩
  rw [if_pos hany]
  simp only [dictDom, List.map_map]
  apply List.map_congr_left
  intro p _
  by_cases h1 : p.1 = k <;> simp [h1]

theorem dictGet_foldl_dictSet (ks : List String) (l : List (String × α)) (dflt v : α)
    (d : String) :
    dictGet (ks.foldl (fun a k => dictSet a k v) l) dflt d
      = if d ∈ ks then v else dictGet l dflt d := by
  induction ks generalizing l with
  | nil => simp
  | cons k ks ih =>
    rw [List.foldl_cons, ih]
    by_cases hd : d ∈ ks
    · simp [hd, List.mem_cons]
    · by_cases hk : d = k
      · subst hk
        simp [hd, dictGet_dictSet_same]
      · simp [hd, hk, dictGet_dictSet_ne l dflt k d v hk]

theorem dictDom_foldl_dictSet (ks : List String) (l : List (String × α)) (v : α)
    (h : ∀ k ∈ ks, k ∈ dictDom l) :
    dictDom (ks.foldl (fun a k => dictSet a k v) l) = dictDom l := by
  induction ks generalizing l with
  | nil => simp
  | cons k ks ih =>
    rw [List.foldl_cons]
    have hdom : dictDom (dictSet l k v) = dictDom l :=
      dictDom_dictSet_mem l k v (h k (List.mem_cons_self k ks))
    rw [ih (dictSet l k v) (fun k' hk' => hdom ▸ h k' (List.mem_cons_of_mem k hk')), hdom]


/-! ## Supporting lemmas -/

theorem edgesFor_append (evs evs' : List KeyEvent) (d : String) :
    edgesFor (evs ++ evs') d = edgesFor evs d ++ edgesFor evs' d := by
  simp [edgesFor]

theorem edgesFor_cons (e : KeyEvent) (evs : List KeyEvent) (d : String) :
    edgesFor (e :: evs) d
      = if e.key = d then e.isDown :: edgesFor evs d else edgesFor evs d := by
  by_cases h : e.key = d <;> simp [edgesFor, List.filter_cons, h]

theorem edgesFor_map_const (l : List String) (hl : l.Nodup) (b : Bool) (ts : ℚ) (d : String) :
    edgesFor (l.map (fun k => ⟨k, b, ts⟩)) d = if d ∈ l then [b] else [] := by
  induction l with
  | nil => simp [edgesFor]
  | cons k l ih =>
    rcases List.nodup_cons.mp hl with ⟨hk, hl'⟩
    rw [List.map_cons, edgesFor_cons, ih hl']
    by_cases h : k = d
    · subst h
      simp [hk]
    · have hne : ¬ ((⟨k, b, ts⟩ : KeyEvent).key = d) := h
      rw [if_neg hne]
      by_cases h2 : d ∈ l
      · simp [h2, List.mem_cons]
      · have h3 : ¬ (d ∈ k :: l) := by
          rw [List.mem_cons]
          rintro (hc | hc)
          · exact h hc.symm
          · exact h2 hc
        simp [h2, h3]

theorem getLast?_cons_cons' (a a' : Bool) (l : List Bool) :
    (a :: a' :: l).getLast? = (a' :: l).getLast? := by
  rfl

theorem alternatesB_append_singleton (l : List Bool) (b : Bool)
    (h : alternatesB l = true) (h2 : l.getLast? ≠ some b) :
    alternatesB (l ++ [b]) = true := by
  induction l with
  | nil => rfl
  | cons a l ih =>
    cases l with
    | nil =>
      have hab : a ≠ b := fun hc => h2 (by simp [hc])
      simp [alternatesB, hab]
    | cons a' l' =>
      have h' := h
      simp only [alternatesB, Bool.and_eq_true] at h'
      have h2' : (a' :: l').getLast? ≠ some b := by
        rw [← getLast?_cons_cons' a a' l']
        exact h2
      have hrec := ih h'.2 h2'
      simp only [List.cons_append] at hrec ⊢
      simp only [alternatesB, Bool.and_eq_true]
      exact ⟨h'.1, by simpa [List.cons_append] using hrec⟩
theorem downTsFor_append (evs evs' : List KeyEvent) (d : String) :
    downTsFor (evs ++ evs') d = downTsFor evs d ++ downTsFor evs' d := by
  simp [downTsFor]

theorem downTsFor_cons (e : KeyEvent) (evs : List KeyEvent) (d : String) :
    downTsFor (e :: evs) d
      = if e.key = d ∧ e.isDown = true then e.ts :: downTsFor evs d else downTsFor evs d := by
  by_cases h1 : e.key = d
  · by_cases h2 : e.isDown = true
    · simp [downTsFor, List.filter_cons, h1, h2]
    · simp [downTsFor, List.filter_cons, h1, h2]
  · simp [downTsFor, List.filter_cons, h1]

theorem downTsFor_map_true (l : List String) (hl : l.Nodup) (ts : ℚ) (d : String) :
    downTsFor (l.map (fun k => ⟨k, true, ts⟩)) d = if d ∈ l then [ts] else [] := by
  induction l with
  | nil => simp [downTsFor]
  | cons k l ih =>
    rcases List.nodup_cons.mp hl with ⟨hk, hl'⟩
    rw [List.map_cons, downTsFor_cons, ih hl']
    by_cases h : k = d
    · subst h
      simp [hk]
    · have hne : ¬ ((⟨k, true, ts⟩ : KeyEvent).key = d ∧ (⟨k, true, ts⟩ : KeyEvent).isDown = true) :=
        fun hc => h hc.1
      rw [if_neg hne]
      by_cases h2 : d ∈ l
      · simp [h2, List.mem_cons]
      · have h3 : ¬ (d ∈ k :: l) := by
          rw [List.mem_cons]
          rintro (hc | hc)
          · exact h hc.symm
          · exact h2 hc
        simp [h2, h3]

theorem downTsFor_map_false (l : List String) (ts : ℚ) (d : String) :
    downTsFor (l.map (fun k => ⟨k, false, ts⟩)) d = [] := by
  induction l with
  | nil => simp [downTsFor]
  | cons k l ih =>
    rw [List.map_cons, downTsFor_cons]
    simp [ih]

theorem lastIsDown_append (evs evs' : List KeyEvent) (d : String) :
    lastIsDown (evs ++ evs') d
      = (((edgesFor evs' d).getLast?).or ((edgesFor evs d).getLast?)).getD false := by
  unfold lastIsDown
  rw [edgesFor_append, List.getLast?_append]

theorem lastDownTs_append (evs evs' : List KeyEvent) (d : String) :
    lastDownTs (evs ++ evs') d
      = (((downTsFor evs' d).getLast?).or ((downTsFor evs d).getLast?)).getD 0 := by
  unfold lastDownTs
  rw [downTsFor_append, List.getLast?_append]
theorem USAGE_ARROW_MAP_mem_dirList (u : Nat) (n : String)
    (h : USAGE_ARROW_MAP u = some n) : n ∈ dirList := by
  unfold USAGE_ARROW_MAP at h
  split_ifs at h <;> simp_all [dirList]

theorem mem_addUsages (w : List Nat) (acc : Finset String) (n : String) :
    n ∈ addUsages acc w
      ↔ n ∈ acc ∨ ∃ u, u ∈ w ∧ ¬ u = 0 ∧ USAGE_ARROW_MAP u = some n := by
  induction w generalizing acc with
  | nil => simp [addUsages]
  | cons u w ih =>
    have hstep : addUsages acc (u :: w)
        = addUsages
            (if u = 0 then acc
             else
               match USAGE_ARROW_MAP u with
               | some name => insert name acc
               | none => acc) w := rfl
    rw [hstep, ih]
    by_cases h0 : u = 0
    · subst h0
      simp only [if_pos rfl, List.mem_cons]
      constructor
      · rintro (h | ⟨u', hu', hz, hm⟩)
        · exact Or.inl h
        · exact Or.inr ⟨u', Or.inr hu', hz, hm⟩
      · rintro (h | ⟨u', hu', hz, hm⟩)
        · exact Or.inl h
        · rcases hu' with rfl | hu'
          · exact absurd rfl hz
          · exact Or.inr ⟨u', hu', hz, hm⟩
    · rcases hm : USAGE_ARROW_MAP u with _ | m
      · simp only [if_neg h0, hm, List.mem_cons]
        constructor
        · rintro (h | ⟨u', hu', hz, hm'⟩)
          · exact Or.inl h
          · exact Or.inr ⟨u', Or.inr hu', hz, hm'⟩
        · rintro (h | ⟨u', hu', hz, hm'⟩)
          · exact Or.inl h
          · rcases hu' with rfl | hu'
            · rw [hm] at hm'
              exact absurd hm' (by simp)
            · exact Or.inr ⟨u', hu', hz, hm'⟩
      · simp only [if_neg h0, hm, Finset.mem_insert, List.mem_cons]
        constructor
        · rintro ((rfl | h) | ⟨u', hu', hz, hm'⟩)
          · exact Or.inr ⟨u, Or.inl rfl, h0, hm⟩
          · exact Or.inl h
          · exact Or.inr ⟨u', Or.inr hu', hz, hm'⟩
        · rintro (h | ⟨u', hu', hz, hm'⟩)
          · exact Or.inl (Or.inr h)
          · rcases hu' with rfl | hu'
            · rw [hm] at hm'
              exact Or.inl (Or.inl (Option.some_injective _ hm').symm)
            · exact Or.inr ⟨u', hu', hz, hm'⟩

theorem mem_decodeReport (buf : List Nat) (n : String) :
    n ∈ decodeReport buf
      ↔ ∃ u, (u ∈ (buf.drop 2).take 6 ∨ u ∈ (buf.drop 3).take 6)
          ∧ ¬ u = 0 ∧ USAGE_ARROW_MAP u = some n := by
  unfold decodeReport
  rw [mem_addUsages, mem_addUsages]
  simp only [Finset.not_mem_empty, false_or]
  constructor
  · rintro (⟨u, hu, hz, hm⟩ | ⟨u, hu, hz, hm⟩)
    · exact ⟨u, Or.inl hu, hz, hm⟩
    · exact ⟨u, Or.inr hu, hz, hm⟩
  · rintro ⟨u, (hu | hu), hz, hm⟩
    · exact Or.inl ⟨u, hu, hz, hm⟩
    · exact Or.inr ⟨u, hu, hz, hm⟩

theorem decodeReport_sub_dirList (buf : List Nat) (n : String)
    (h : n ∈ decodeReport buf) : n ∈ dirList := by
  rcases (mem_decodeReport buf n).mp h with ⟨u, _, _, hm⟩
  exact USAGE_ARROW_MAP_mem_dirList u n hm

theorem addUsages_eq_union (acc : Finset String) (w : List Nat) :
    addUsages acc w = acc ∪ addUsages ∅ w := by
  ext n
  rw [mem_addUsages, Finset.mem_union, mem_addUsages]
  simp

theorem dirList_nodup : dirList.Nodup := by decide

theorem mem_edgeList (keys prev : Finset String) (d : String) :
    d ∈ edgeList keys prev ↔ d ∈ dirList ∧ d ∈ keys ∧ d ∉ prev := by
  unfold edgeList
  rw [List.mem_filter]
  simp [and_assoc]

theorem edgeList_nodup (keys prev : Finset String) : (edgeList keys prev).Nodup :=
  dirList_nodup.filter _
theorem getD_false_ne_some_true (l : List Bool)
    (h : (l.getLast?).getD false = false) : l.getLast? ≠ some true := by
  cases hl : l.getLast? <;> simp_all

theorem getLast?_eq_some_true (l : List Bool)
    (h : (l.getLast?).getD false = true) : l.getLast? = some true := by
  cases hl : l.getLast? <;> simp_all

theorem edgesFor_nil_of_keys (evs : List KeyEvent) (d : String)
    (hsub : ∀ e ∈ evs, e.key ∈ dirList) (hd : d ∉ dirList) :
    edgesFor evs d = [] := by
  unfold edgesFor
  have : evs.filter (fun e => decide (e.key = d)) = [] := by
    rw [List.filter_eq_nil_iff]
    intro e he
    simp only [decide_eq_true_eq]
    intro hc
    exact hd (hc ▸ hsub e he)
  rw [this, List.map_nil]

theorem dictGet_all_eq (l : List (String × α)) (dflt : α) (d : String)
    (h : ∀ p ∈ l, p.2 = dflt) : dictGet l dflt d = dflt := by
  unfold dictGet
  rcases hf : l.find? (fun p => decide (p.1 = d)) with _ | p
  · rw [hf]
  · rw [hf]
    exact h p (List.mem_of_find?_eq_some hf)


theorem hidInv_of_fields {st st' : HIDState} (h : HIDInv st)
    (he : st'.events = st.events) (hp : st'.prevKeys = st.prevKeys)
    (hks : st'.keyStates = st.keyStates) (hkt : st'.keyPressTime = st.keyPressTime) :
    HIDInv st' := by
  constructor
  · rw [he]; exact h.alt
  · intro d; rw [he, hp]; exact h.prev d
  · intro d; rw [he, hks]; exact h.states d
  · intro d; rw [he, hkt]; exact h.times d
  · rw [hks]; exact h.domS
  · rw [hkt]; exact h.domT
  · rw [he]; exact h.keysSub
  · rw [hp]; exact h.prevSub

theorem hidInv_init : HIDInv hidInit := by
  constructor
  · intro d; rfl
  · intro d; simp [hidInit, lastIsDown, edgesFor]
  · intro d
    simp only [hidInit, lastIsDown, edgesFor, List.filter_nil, List.map_nil,
      List.getLast?_nil, Option.getD_none]
    exact dictGet_all_eq _ _ _ (by intro p hp; simp at hp; rcases hp with rfl | rfl | rfl | rfl <;> rfl)
  · intro d
    simp only [hidInit, lastDownTs, downTsFor, List.filter_nil, List.map_nil,
      List.getLast?_nil, Option.getD_none]
    exact dictGet_all_eq _ _ _ (by intro p hp; simp at hp; rcases hp with rfl | rfl | rfl | rfl <;> rfl)
  · rfl
  · rfl
  · intro e he; simp [hidInit] at he
  · intro d hd; simp [hidInit] at hd
theorem lastIsDown_eq (evs : List KeyEvent) (d : String) :
    lastIsDown evs d = ((edgesFor evs d).getLast?).getD false := rfl

theorem hidDataStep_events (st : HIDState) (buf : List Nat) (ts : ℚ) :
    (hidDataStep st buf ts).events
      = st.events ++ (edgeList (decodeReport buf) st.prevKeys).map (fun k => ⟨k, true, ts⟩)
          ++ (edgeList st.prevKeys (decodeReport buf)).map (fun k => ⟨k, false, ts⟩) := rfl

theorem hidDataStep_prevKeys (st : HIDState) (buf : List Nat) (ts : ℚ) :
    (hidDataStep st buf ts).prevKeys = decodeReport buf := rfl

theorem hidDataStep_keyStates (st : HIDState) (buf : List Nat) (ts : ℚ) :
    (hidDataStep st buf ts).keyStates
      = (edgeList st.prevKeys (decodeReport buf)).foldl (fun a k => dictSet a k false)
          ((edgeList (decodeReport buf) st.prevKeys).foldl (fun a k => dictSet a k true)
            st.keyStates) := rfl

theorem hidDataStep_keyPressTime (st : HIDState) (buf : List Nat) (ts : ℚ) :
    (hidDataStep st buf ts).keyPressTime
      = (edgeList (decodeReport buf) st.prevKeys).foldl (fun a k => dictSet a k ts)
          st.keyPressTime := rfl

theorem hidDataStep_running (st : HIDState) (buf : List Nat) (ts : ℚ) :
    (hidDataStep st buf ts).running = st.running := rfl

theorem hidDataStep_errorCount (st : HIDState) (buf : List Nat) (ts : ℚ) :
    (hidDataStep st buf ts).errorCount = 0 := rfl

theorem edgeList_disj (keys prev : Finset String) (d : String)
    (h : d ∈ edgeList keys prev) : d ∉ edgeList prev keys := by
  intro h2
  exact ((mem_edgeList _ _ d).mp h).2.2 ((mem_edgeList _ _ d).mp h2).2.1

theorem edges_after_data (evs : List KeyEvent) (keys prev : Finset String) (ts : ℚ)
    (d : String) :
    edgesFor (evs ++ (edgeList keys prev).map (fun k => ⟨k, true, ts⟩)
        ++ (edgeList prev keys).map (fun k => ⟨k, false, ts⟩)) d
      = edgesFor evs d ++ ((if d ∈ edgeList keys prev then [true] else [])
          ++ (if d ∈ edgeList prev keys then [false] else [])) := by
  rw [List.append_assoc, edgesFor_append, edgesFor_append,
      edgesFor_map_const _ (edgeList_nodup _ _), edgesFor_map_const _ (edgeList_nodup _ _)]

theorem downTs_after_data (evs : List KeyEvent) (keys prev : Finset String) (ts : ℚ)
    (d : String) :
    downTsFor (evs ++ (edgeList keys prev).map (fun k => ⟨k, true, ts⟩)
        ++ (edgeList prev keys).map (fun k => ⟨k, false, ts⟩)) d
      = downTsFor evs d ++ (if d ∈ edgeList keys prev then [ts] else []) := by
  rw [List.append_assoc, downTsFor_append, downTsFor_append,
      downTsFor_map_true _ (edgeList_nodup _ _), downTsFor_map_false]
  simp

theorem lastIsDown_after_data (evs : List KeyEvent) (keys prev : Finset String) (ts : ℚ)
    (d : String) :
    lastIsDown (evs ++ (edgeList keys prev).map (fun k => ⟨k, true, ts⟩)
        ++ (edgeList prev keys).map (fun k => ⟨k, false, ts⟩)) d
      = if d ∈ edgeList keys prev then true
        else if d ∈ edgeList prev keys then false
        else lastIsDown evs d := by
  rw [lastIsDown_eq, edges_after_data]
  by_cases hd : d ∈ edgeList keys prev
  · have hu : d ∉ edgeList prev keys := edgeList_disj _ _ _ hd
    rw [if_pos hd, if_neg hu, if_pos hd]
    simp
  · rw [if_neg hd, if_neg hd]
    by_cases hu : d ∈ edgeList prev keys
    · rw [if_pos hu, if_pos hu]
      simp
    · rw [if_neg hu, if_neg hu]
      simp [lastIsDown_eq]

theorem lastDownTs_after_data (evs : List KeyEvent) (keys prev : Finset String) (ts : ℚ)
    (d : String) :
    lastDownTs (evs ++ (edgeList keys prev).map (fun k => ⟨k, true, ts⟩)
        ++ (edgeList prev keys).map (fun k => ⟨k, false, ts⟩)) d
      = if d ∈ edgeList keys prev then ts else lastDownTs evs d := by
  unfold lastDownTs
  rw [downTs_after_data]
  by_cases hd : d ∈ edgeList keys prev
  · rw [if_pos hd, if_pos hd]
    simp
  · rw [if_neg hd, if_neg hd]
    simp
theorem hidInv_data (st : HIDState) (buf : List Nat) (ts : ℚ) (h : HIDInv st) :
    HIDInv (hidDataStep st buf ts) := by
  constructor
  · -- alternation
    intro d
    rw [hidDataStep_events]
    by_cases hd : d ∈ edgeList (decodeReport buf) st.prevKeys
    · have hu : d ∉ edgeList st.prevKeys (decodeReport buf) := edgeList_disj _ _ _ hd
      rw [edges_after_data, if_pos hd, if_neg hu]
      have hprev : d ∉ st.prevKeys := ((mem_edgeList _ _ d).mp hd).2.2
      have hlast : (edgesFor st.events d).getLast? ≠ some true := by
        apply getD_false_ne_some_true
        rw [← lastIsDown_eq, ← h.prev d]
        simp [hprev]
      have := alternatesB_append_singleton (edgesFor st.events d) true (h.alt d) hlast
      simpa using this
    · rw [edges_after_data, if_neg hd]
      by_cases hu : d ∈ edgeList st.prevKeys (decodeReport buf)
      · rw [if_pos hu]
        have hprev : d ∈ st.prevKeys := ((mem_edgeList _ _ d).mp hu).2.1
        have hlast : (edgesFor st.events d).getLast? ≠ some false := by
          rw [getLast?_eq_some_true]
          · simp
          · rw [← lastIsDown_eq, ← h.prev d]
            simp [hprev]
        have := alternatesB_append_singleton (edgesFor st.events d) false (h.alt d) hlast
        simpa using this
      · rw [if_neg hu]
        simpa using h.alt d
  · -- prevKeys tracks last edge
    intro d
    rw [hidDataStep_events, hidDataStep_prevKeys, lastIsDown_after_data]
    by_cases hd : d ∈ edgeList (decodeReport buf) st.prevKeys
    · rw [if_pos hd]
      simp [((mem_edgeList _ _ d).mp hd).2.1]
    · rw [if_neg hd]
      by_cases hu : d ∈ edgeList st.prevKeys (decodeReport buf)
      · rw [if_pos hu]
        simp [((mem_edgeList _ _ d).mp hu).2.2]
      · rw [if_neg hu]
        by_cases hdir : d ∈ dirList
        · by_cases hk : d ∈ decodeReport buf
          · have hp : d ∈ st.prevKeys := by
              by_contra hp
              exact hd ((mem_edgeList _ _ d).mpr ⟨hdir, hk, hp⟩)
            rw [← h.prev d]
            simp [hk, hp]
          · have hp : d ∉ st.prevKeys := by
              intro hp
              exact hu ((mem_edgeList _ _ d).mpr ⟨hdir, hp, hk⟩)
            rw [← h.prev d]
            simp [hk, hp]
        · have hk : d ∉ decodeReport buf := fun hc => hdir (decodeReport_sub_dirList _ _ hc)
          have hp : d ∉ st.prevKeys := fun hc => hdir (h.prevSub d hc)
          rw [← h.prev d]
          simp [hk, hp]
  · -- key_states tracks last edge
    intro d
    rw [hidDataStep_events, hidDataStep_keyStates, lastIsDown_after_data,
        dictGet_foldl_dictSet, dictGet_foldl_dictSet]
    by_cases hd : d ∈ edgeList (decodeReport buf) st.prevKeys
    · have hu : d ∉ edgeList st.prevKeys (decodeReport buf) := edgeList_disj _ _ _ hd
      simp [hd, hu]
    · by_cases hu : d ∈ edgeList st.prevKeys (decodeReport buf)
      · simp [hd, hu]
      · simp [hd, hu, h.states d]
  · -- key_press_time tracks last down-edge
    intro d
    rw [hidDataStep_events, hidDataStep_keyPressTime, lastDownTs_after_data,
        dictGet_foldl_dictSet]
    by_cases hd : d ∈ edgeList (decodeReport buf) st.prevKeys
    · simp [hd]
    · simp [hd, h.times d]
  · -- key_states domain
    have hdsub : ∀ k ∈ edgeList (decodeReport buf) st.prevKeys, k ∈ dictDom st.keyStates := by
      intro k hk
      rw [h.domS]
      exact ((mem_edgeList _ _ k).mp hk).1
    have hinner := dictDom_foldl_dictSet (edgeList (decodeReport buf) st.prevKeys)
      st.keyStates true hdsub
    have husub : ∀ k ∈ edgeList st.prevKeys (decodeReport buf),
        k ∈ dictDom ((edgeList (decodeReport buf) st.prevKeys).foldl
          (fun a k => dictSet a k true) st.keyStates) := by
      intro k hk
      rw [hinner, h.domS]
      exact ((mem_edgeList _ _ k).mp hk).1
    rw [hidDataStep_keyStates,
        dictDom_foldl_dictSet (edgeList st.prevKeys (decodeReport buf)) _ false husub,
        hinner, h.domS]
  · -- key_press_time domain
    have hdsub : ∀ k ∈ edgeList (decodeReport buf) st.prevKeys, k ∈ dictDom st.keyPressTime := by
      intro k hk
      rw [h.domT]
      exact ((mem_edgeList _ _ k).mp hk).1
    rw [hidDataStep_keyPressTime,
        dictDom_foldl_dictSet (edgeList (decodeReport buf) st.prevKeys) _ ts hdsub, h.domT]
  · -- event keys are directions
    intro e he
    rw [hidDataStep_events] at he
    rcases List.mem_append.mp he with he | he
    · rcases List.mem_append.mp he with he | he
      · exact h.keysSub e he
      · rcases List.mem_map.mp he with ⟨k, hk, rfl⟩
        exact ((mem_edgeList _ _ k).mp hk).1
    · rcases List.mem_map.mp he with ⟨k, hk, rfl⟩
      exact ((mem_edgeList _ _ k).mp hk).1
  · -- prevKeys are directions
    intro d hd
    rw [hidDataStep_prevKeys] at hd
    exact decodeReport_sub_dirList _ _ hd

theorem hidInv_step (st : HIDState) (r : HIDRead) (h : HIDInv st) :
    HIDInv (hidStep st r) := by
  by_cases hrun : st.running = false
  · rw [hidStep.eq_def, if_pos hrun]
    exact h
  · rw [hidStep.eq_def, if_neg hrun]
    cases r with
    | oserror stopped =>
      cases stopped
      · dsimp only
        by_cases hce : 10 ≤ st.errorCount + 1
        · rw [if_pos hce]
          exact hidInv_of_fields h rfl rfl rfl rfl
        · rw [if_neg hce]
          exact hidInv_of_fields h rfl rfl rfl rfl
      · exact hidInv_of_fields h rfl rfl rfl rfl
    | exc =>
      dsimp only
      by_cases hce : 10 ≤ st.errorCount + 1
      · rw [if_pos hce]
        exact hidInv_of_fields h rfl rfl rfl rfl
      · rw [if_neg hce]
        exact hidInv_of_fields h rfl rfl rfl rfl
    | nodata => exact h
    | data buf ts =>
      dsimp only
      by_cases hb : buf = []
      · rw [if_pos hb]
        exact h
      · rw [if_neg hb]
        exact hidInv_data st buf ts h

theorem hidInv_foldl (st : HIDState) (h : HIDInv st) (rs : List HIDRead) :
    HIDInv (rs.foldl hidStep st) := by
  induction rs generalizing st with
  | nil => exact h
  | cons r rs ih => exact ih (hidStep st r) (hidInv_step st r h)

theorem hidInv_run (rs : List HIDRead) : HIDInv (hidRun rs) :=
  hidInv_foldl hidInit hidInv_init rs
theorem ESCAPE_MAP_mem (s : List Char) (k : String) (h : ESCAPE_MAP s = some k) :
    k ∈ dirList := by
  unfold ESCAPE_MAP at h
  split_ifs at h <;> simp_all [dirList]

theorem lastIsDown_append_single (evs : List KeyEvent) (k : String) (b : Bool) (t : ℚ)
    (d : String) :
    lastIsDown (evs ++ [⟨k, b, t⟩]) d = if k = d then b else lastIsDown evs d := by
  rw [lastIsDown_eq, edgesFor_append]
  by_cases hk : k = d
  · have he : edgesFor [⟨k, b, t⟩] d = [b] := by simp [edgesFor, hk]
    rw [he, if_pos hk, List.getLast?_concat]
    rfl
  · have he : edgesFor [⟨k, b, t⟩] d = [] := by simp [edgesFor, hk]
    rw [he, if_neg hk]
    simp [lastIsDown_eq]

theorem lastDownTs_append_down (evs : List KeyEvent) (k : String) (t : ℚ) (d : String) :
    lastDownTs (evs ++ [⟨k, true, t⟩]) d = if k = d then t else lastDownTs evs d := by
  unfold lastDownTs
  rw [downTsFor_append]
  by_cases hk : k = d
  · have he : downTsFor [⟨k, true, t⟩] d = [t] := by simp [downTsFor, hk]
    rw [he, if_pos hk, List.getLast?_concat]
    rfl
  · have he : downTsFor [⟨k, true, t⟩] d = [] := by simp [downTsFor, hk]
    rw [he, if_neg hk]
    simp


theorem stdinInv_of_fields {st st' : StdinState} (h : StdinInv st)
    (he : st'.events = st.events) (hks : st'.keyStates = st.keyStates)
    (hkt : st'.keyPressTime = st.keyPressTime) : StdinInv st' := by
  constructor
  · rw [he]; exact h.allDown
  · intro d; rw [he, hks]; exact h.states d
  · intro d; rw [he, hkt]; exact h.times d
  · rw [hks]; exact h.domS
  · rw [hkt]; exact h.domT
  · rw [he]; exact h.keysSub

theorem stdinInv_init : StdinInv stdinInit := by
  constructor
  · intro e he; simp [stdinInit] at he
  · intro d
    simp only [stdinInit, lastIsDown, edgesFor, List.filter_nil, List.map_nil,
      List.getLast?_nil, Option.getD_none]
    exact dictGet_all_eq _ _ _
      (by intro p hp; simp at hp; rcases hp with rfl | rfl | rfl | rfl <;> rfl)
  · intro d
    simp only [stdinInit, lastDownTs, downTsFor, List.filter_nil, List.map_nil,
      List.getLast?_nil, Option.getD_none]
    exact dictGet_all_eq _ _ _
      (by intro p hp; simp at hp; rcases hp with rfl | rfl | rfl | rfl <;> rfl)
  · rfl
  · rfl
  · intro e he; simp [stdinInit] at he

theorem stdinInv_arrow (st : StdinState) (key : String) (t : ℚ) (h : StdinInv st)
    (hkey : key ∈ dirList) :
    StdinInv { st with
        buffer := []
        escStart := none
        keyStates := dictSet st.keyStates key true
        keyPressTime := dictSet st.keyPressTime key t
        lastDirection := some key
        events := st.events ++ [⟨key, true, t⟩] } := by
  constructor
  · intro e he
    dsimp only at he
    rcases List.mem_append.mp he with he | he
    · exact h.allDown e he
    · simp only [List.mem_singleton] at he
      subst he
      rfl
  · intro d
    dsimp only
    rw [lastIsDown_append_single]
    by_cases hk : key = d
    · subst hk
      rw [if_pos rfl, dictGet_dictSet_same]
    · rw [if_neg hk, dictGet_dictSet_ne _ _ _ _ _ (fun hc => hk hc.symm), h.states d]
  · intro d
    dsimp only
    rw [lastDownTs_append_down]
    by_cases hk : key = d
    · subst hk
      rw [if_pos rfl, dictGet_dictSet_same]
    · rw [if_neg hk, dictGet_dictSet_ne _ _ _ _ _ (fun hc => hk hc.symm), h.times d]
  · dsimp only
    rw [dictDom_dictSet_mem _ _ _ (by rw [h.domS]; exact hkey), h.domS]
  · dsimp only
    rw [dictDom_dictSet_mem _ _ _ (by rw [h.domT]; exact hkey), h.domT]
  · intro e he
    dsimp only at he
    rcases List.mem_append.mp he with he | he
    · exact h.keysSub e he
    · simp only [List.mem_singleton] at he
      subst he
      exact hkey

theorem stdinInv_step (st : StdinState) (i : StdinInput) (h : StdinInv st) :
    StdinInv (stdinStep st i) := by
  by_cases hrun : st.running = false
  · rw [stdinStep.eq_def, if_pos hrun]
    exact h
  · rw [stdinStep.eq_def, if_neg hrun]
    cases i with
    | tick t =>
      dsimp only
      cases hes : st.escStart with
      | none => exact h
      | some t0 =>
        dsimp only
        by_cases ht : 1/10 < t - t0
        · rw [if_pos ht]
          exact stdinInv_of_fields h rfl rfl rfl
        · rw [if_neg ht]
          exact h
    | byte c t =>
      dsimp only
      by_cases h3 : c = '\x03'
      · rw [if_pos h3]
        exact stdinInv_of_fields h rfl rfl rfl
      · rw [if_neg h3]
        by_cases hesc : c = '\x1b'
        · rw [if_pos hesc]
          exact stdinInv_of_fields h rfl rfl rfl
        · rw [if_neg hesc]
          cases hes : st.escStart with
          | none => exact h
          | some t0 =>
            dsimp only
            by_cases hcomp : (st.buffer ++ [c]).length = 3
                ∧ (st.buffer ++ [c])[1]? = some '['
                ∧ ((st.buffer ++ [c])[2]? = some 'A' ∨ (st.buffer ++ [c])[2]? = some 'B'
                   ∨ (st.buffer ++ [c])[2]? = some 'C' ∨ (st.buffer ++ [c])[2]? = some 'D')
            · rw [if_pos hcomp]
              cases hm : ESCAPE_MAP (st.buffer ++ [c]) with
              | none =>
                dsimp only
                exact stdinInv_of_fields h rfl rfl rfl
              | some key =>
                dsimp only
                exact stdinInv_arrow st key t h (ESCAPE_MAP_mem _ _ hm)
            · rw [if_neg hcomp]
              by_cases hlen : 5 < (st.buffer ++ [c]).length
              · rw [if_pos hlen]
                exact stdinInv_of_fields h rfl rfl rfl
              · rw [if_neg hlen]
                exact stdinInv_of_fields h rfl rfl rfl

theorem stdinInv_foldl (st : StdinState) (h : StdinInv st) (is : List StdinInput) :
    StdinInv (is.foldl stdinStep st) := by
  induction is generalizing st with
  | nil => exact h
  | cons i is ih => exact ih (stdinStep st i) (stdinInv_step st i h)

theorem stdinInv_run (is : List StdinInput) : StdinInv (stdinRun is) :=
  stdinInv_foldl stdinInit stdinInv_init is

theorem mem_window (buf : List Nat) (k : Nat) (v : Nat)
    (h : v ∈ (buf.drop k).take 6) : ∃ j, j < 6 ∧ buf[k + j]? = some v := by
  rcases List.mem_iff_getElem?.mp h with ⟨j, hj⟩
  have hjlt : j < 6 := by
    by_contra hge
    push_neg at hge
    have hnone : ((buf.drop k).take 6)[j]? = none := by
      apply List.getElem?_eq_none
      exact le_trans (List.length_take_le 6 (buf.drop k)) hge
    rw [hnone] at hj
    exact Option.noConfusion hj
  refine ⟨j, hjlt, ?_⟩
  rw [List.getElem?_take_of_lt hjlt, List.getElem?_drop] at hj
  exact hj

theorem windowRestClean_spec (buf : List Nat) (h : windowRestClean buf = true)
    (j : Nat) (hj : j < 5) (v : Nat) (hv : buf[4 + j]? = some v) :
    v = 0 ∨ USAGE_ARROW_MAP v = none := by
  have hall := List.all_eq_true.mp h j (List.mem_range.mpr hj)
  rw [hv] at hall
  simp only [Bool.or_eq_true, beq_iff_eq, Option.isNone_iff_eq_none] at hall
  exact hall

theorem stdinStep_tick_timeout (st : StdinState) (t t0 : ℚ) (hrun : st.running = true)
    (hes : st.escStart = some t0) (ht : 1/10 < t - t0) :
    stdinStep st (.tick t) = { st with buffer := [], escStart := none } := by
  have hnf : ¬ st.running = false := by simp [hrun]
  rw [stdinStep.eq_def, if_neg hnf]
  dsimp only
  rw [hes]
  dsimp only
  rw [if_pos ht]

theorem findArrow_last (buf : List Nat) (name : String) (h : findArrow buf = some name) :
    buf.getLast? = some 0x41 ∨ buf.getLast? = some 0x42
    ∨ buf.getLast? = some 0x43 ∨ buf.getLast? = some 0x44 := by
  unfold findArrow at h
  rcases hf : ESC_SEQ_LIST.find? (fun p => decide (p.1 <:+ buf)) with _ | p
  · rw [hf] at h
    exact Option.noConfusion h
  · have hp := List.find?_some hf
    have hmem := List.mem_of_find?_eq_some hf
    have hsuf : p.1 <:+ buf := of_decide_eq_true hp
    simp only [ESC_SEQ_LIST, List.mem_cons, List.not_mem_nil, or_false] at hmem
    rcases hsuf with ⟨pre, rfl⟩
    rcases hmem with rfl | rfl | rfl | rfl
    · exact Or.inl (by rw [List.getLast?_append]; rfl)
    · exact Or.inr (Or.inl (by rw [List.getLast?_append]; rfl))
    · exact Or.inr (Or.inr (Or.inl (by rw [List.getLast?_append]; rfl)))
    · exact Or.inr (Or.inr (Or.inr (by rw [List.getLast?_append]; rfl)))


/-! ## Claims -/

/-- C1, counterexample to the claim as stated: in the terminal engine, typing
the up-arrow sequence twice enqueues two consecutive down-edge events for
`up` with no intervening up-edge, so the per-direction stream does not
alternate for the stdin Acquisition Engine. -/
theorem C1_counterexample :
    (stdinRun [.byte '\x1b' 0, .byte '[' 0, .byte 'A' 0,
        .byte '\x1b' 1, .byte '[' 1, .byte 'A' 1]).events
      = [⟨"up", true, 0⟩, ⟨"up", true, 1⟩]
    ∧ alternatesB (edgesFor (stdinRun [.byte '\x1b' 0, .byte '[' 0, .byte 'A' 0,
        .byte '\x1b' 1, .byte '[' 1, .byte 'A' 1]).events "up") = false := by
  constructor
  · rfl
  · rfl

/-- C1 (amended): for the HID engine, the enqueued stream for any single
direction alternates between down-edges and up-edges on every trace of
injected raw reports; the terminal engine enqueues only down-edge events
(it never synthesizes up-edges), so its streams do not alternate. -/
theorem C1_theorem :
    (∀ (rs : List HIDRead) (d : String),
        alternatesB (edgesFor (hidRun rs).events d) = true)
    ∧ (∀ is : List StdinInput, (stdinRun is).events.all (fun e => e.isDown) = true) := by
  constructor
  · intro rs d
    exact (hidInv_run rs).alt d
  · intro is
    rw [List.all_eq_true]
    intro e he
    exact (stdinInv_run is).allDown e he

/-- C2, counterexample to the claim as stated: `StdinListener.stop()` never
joins the worker thread — it clears the running flag and immediately
restores the terminal mode. -/
theorem C2_counterexample :
    stdinStopActions.any isJoinAction = false
    ∧ stdinStopActions = [.setRunningFalse, .releaseResource] := by
  constructor
  · rfl
  · rfl

/-- C2 (amended): the HID engine's `stop()` clears the running flag, then
joins the worker with a 1-second timeout, and only then attempts to release
the device handle; the terminal engine's `stop()` clears the running flag
and immediately restores the saved terminal mode without joining the
worker. -/
theorem C2_theorem :
    (hidStopActions.indexOf .setRunningFalse < hidStopActions.indexOf (.joinThread 1)
      ∧ hidStopActions.indexOf (.joinThread 1) < hidStopActions.indexOf .releaseResource
      ∧ StopAction.joinThread 1 ∈ hidStopActions
      ∧ StopAction.releaseResource ∈ hidStopActions)
    ∧ (stdinStopActions.indexOf .setRunningFalse < stdinStopActions.indexOf .releaseResource
      ∧ StopAction.releaseResource ∈ stdinStopActions
      ∧ stdinStopActions.any isJoinAction = false) := by
  decide

/-- C3: for both engines, on every trace and for every key, `is_pressed` is
true iff the most recent recorded edge for that key is a down-edge;
`pressed_duration` is 0 when not pressed and equals the elapsed time since
the most recent down-edge while pressed, and is non-decreasing in the
current time. -/
theorem C3_theorem :
    (∀ (rs : List HIDRead) (d : String) (now now' : ℚ),
        isPressedKS (hidRun rs).keyStates d = lastIsDown (hidRun rs).events d
        ∧ pressedDurationKS (hidRun rs).keyStates (hidRun rs).keyPressTime now d
            = (if lastIsDown (hidRun rs).events d = true
               then now - lastDownTs (hidRun rs).events d else 0)
        ∧ (now ≤ now' →
            pressedDurationKS (hidRun rs).keyStates (hidRun rs).keyPressTime now d
              ≤ pressedDurationKS (hidRun rs).keyStates (hidRun rs).keyPressTime now' d))
    ∧ (∀ (is : List StdinInput) (d : String) (now now' : ℚ),
        isPressedKS (stdinRun is).keyStates d = lastIsDown (stdinRun is).events d
        ∧ pressedDurationKS (stdinRun is).keyStates (stdinRun is).keyPressTime now d
            = (if lastIsDown (stdinRun is).events d = true
               then now - lastDownTs (stdinRun is).events d else 0)
        ∧ (now ≤ now' →
            pressedDurationKS (stdinRun is).keyStates (stdinRun is).keyPressTime now d
              ≤ pressedDurationKS (stdinRun is).keyStates (stdinRun is).keyPressTime now' d)) := by
  constructor
  · intro rs d now now'
    have hinv := hidInv_run rs
    have h1 : isPressedKS (hidRun rs).keyStates d = lastIsDown (hidRun rs).events d :=
      hinv.states d
    refine ⟨h1, ?_, ?_⟩
    · unfold pressedDurationKS
      rw [h1, hinv.times d]
    · intro hle
      unfold pressedDurationKS
      by_cases hp : isPressedKS (hidRun rs).keyStates d = true
      · rw [if_pos hp, if_pos hp]
        exact sub_le_sub_right hle _
      · rw [if_neg hp, if_neg hp]
  · intro is d now now'
    have hinv := stdinInv_run is
    have h1 : isPressedKS (stdinRun is).keyStates d = lastIsDown (stdinRun is).events d :=
      hinv.states d
    refine ⟨h1, ?_, ?_⟩
    · unfold pressedDurationKS
      rw [h1, hinv.times d]
    · intro hle
      unfold pressedDurationKS
      by_cases hp : isPressedKS (stdinRun is).keyStates d = true
      · rw [if_pos hp, if_pos hp]
        exact sub_le_sub_right hle _
      · rw [if_neg hp, if_neg hp]

/-- C3 witness: after a single up-arrow HID report at time 1, the pressed
duration of `up` is monotone from `now = 2` to `now = 3`. -/
theorem C3_witness :
    pressedDurationKS (hidRun [.data [0, 0, 0x52, 0, 0, 0, 0, 0] 1]).keyStates
        (hidRun [.data [0, 0, 0x52, 0, 0, 0, 0, 0] 1]).keyPressTime 2 "up"
      ≤ pressedDurationKS (hidRun [.data [0, 0, 0x52, 0, 0, 0, 0, 0] 1]).keyStates
        (hidRun [.data [0, 0, 0x52, 0, 0, 0, 0, 0] 1]).keyPressTime 3 "up" :=
  (C3_theorem.1 [.data [0, 0, 0x52, 0, 0, 0, 0, 0] 1] "up" 2 3).2.2 (by norm_num)

/-- C4: in the HID run loop, a transient error (the `OSError` handler with
the engine still running, or the generic exception handler) increments the
error counter and stops the loop exactly when the counter reaches the
ceiling of 10, without touching the event queue; a successful read that
returns data resets the counter to 0; ten consecutive errors from a fresh
start leave the engine no longer running while nine do not. -/
theorem C4_theorem :
    (∀ st : HIDState, st.running = true →
        (hidStep st .exc).errorCount = st.errorCount + 1
        ∧ ((hidStep st .exc).running = false ↔ 10 ≤ st.errorCount + 1)
        ∧ (hidStep st (.oserror false)).errorCount = st.errorCount + 1
        ∧ ((hidStep st (.oserror false)).running = false ↔ 10 ≤ st.errorCount + 1)
        ∧ (hidStep st .exc).events = st.events
        ∧ (hidStep st (.oserror false)).events = st.events)
    ∧ (∀ (st : HIDState) (buf : List Nat) (ts : ℚ), st.running = true → buf ≠ [] →
        (hidStep st (.data buf ts)).errorCount = 0)
    ∧ (hidRun (List.replicate 10 .exc)).running = false
    ∧ (hidRun (List.replicate 9 .exc)).running = true := by
  refine ⟨?_, ?_, by decide, by decide⟩
  · intro st hrun
    have hnf : ¬ st.running = false := by simp [hrun]
    rw [hidStep.eq_def, hidStep.eq_def, if_neg hnf, if_neg hnf]
    dsimp only
    rw [if_neg (show ¬ (false = true) by decide)]
    by_cases hce : 10 ≤ st.errorCount + 1
    · rw [if_pos hce]
      refine ⟨rfl, by simp [hce], rfl, by simp [hce], rfl, rfl⟩
    · rw [if_neg hce]
      refine ⟨rfl, by simp [hrun, hce], rfl, by simp [hrun, hce], rfl, rfl⟩
  · intro st buf ts hrun hbuf
    have hnf : ¬ st.running = false := by simp [hrun]
    rw [hidStep.eq_def, if_neg hnf]
    dsimp only
    rw [if_neg hbuf]
    rfl

/-- C4 witness: applying the error-counting facts at the freshly started
state and a concrete nonempty report. -/
theorem C4_witness :
    ((hidStep hidInit .exc).errorCount = hidInit.errorCount + 1
      ∧ ((hidStep hidInit .exc).running = false ↔ 10 ≤ hidInit.errorCount + 1)
      ∧ (hidStep hidInit (.oserror false)).errorCount = hidInit.errorCount + 1
      ∧ ((hidStep hidInit (.oserror false)).running = false ↔ 10 ≤ hidInit.errorCount + 1)
      ∧ (hidStep hidInit .exc).events = hidInit.events
      ∧ (hidStep hidInit (.oserror false)).events = hidInit.events)
    ∧ (hidStep hidInit (.data [0, 0, 0x52, 0, 0, 0, 0, 0] 1)).errorCount = 0 :=
  ⟨C4_theorem.1 hidInit rfl,
   C4_theorem.2.1 hidInit [0, 0, 0x52, 0, 0, 0, 0, 0] 1 rfl (by decide)⟩

/-- C5: discovery accepts a descriptor with the generic-desktop/keyboard
usage pair, accepts one whose product or manufacturer string contains
"keyboard" case-insensitively, and never lists (hence never opens) a
descriptor that fails the whole scoring predicate; on the three scoring-test
descriptors it opens the first and rejects the third; when no candidate
opens, `_open` raises the no-device-found error. -/
theorem C5_theorem :
    (∀ d : DeviceInfo, d.usagePage = some 0x01 → d.usage = some 0x06 →
        looksLikeKeyboard d = true)
    ∧ (∀ d : DeviceInfo,
        (strContains (lowerStr (sVal d.productString)) "keyboard"
          || strContains (lowerStr (sVal d.manufacturerString)) "keyboard") = true →
        looksLikeKeyboard d = true)
    ∧ (∀ (d : DeviceInfo) (ds : List DeviceInfo), looksLikeKeyboard d = false →
        d ∉ discoverCandidates ds)
    ∧ openFirstCandidate [specD1, specD2, specD3] (fun _ => true) = .ok specD1
    ∧ discoverCandidates [specD1, specD2, specD3] = [specD1, specD2]
    ∧ (∀ (ds : List DeviceInfo) (opens : DeviceInfo → Bool),
        (discoverCandidates ds).all (fun c => !(opens c)) = true →
        openFirstCandidate ds opens = .error "No suitable HID device found") := by
  refine ⟨?_, ?_, ?_, by rfl, by rfl, ?_⟩
  · intro d h1 h2
    unfold looksLikeKeyboard
    simp [h1, h2]
  · intro d hs
    unfold looksLikeKeyboard
    dsimp only
    rw [hs]
    simp
  · intro d ds h hc
    rw [discoverCandidates, List.mem_filter, h] at hc
    simp at hc
  · intro ds opens hall
    unfold openFirstCandidate
    have hnone : (discoverCandidates ds).find? opens = none := by
      rw [List.find?_eq_none]
      intro c hcmem
      have hc := List.all_eq_true.mp hall c hcmem
      simp only [Bool.not_eq_eq_eq_not, Bool.not_true] at hc
      simp [hc]
    rw [hnone]

/-- C5 witness: the scoring predicate accepts the usage-matching and the
"Keyboard"-string descriptors, rejects the third, and an all-fail open
oracle yields the no-device-found error. -/
theorem C5_witness :
    looksLikeKeyboard specD1 = true
    ∧ looksLikeKeyboard specD2 = true
    ∧ openFirstCandidate [specD1, specD2, specD3] (fun _ => false)
        = .error "No suitable HID device found" :=
  ⟨C5_theorem.1 specD1 rfl rfl,
   C5_theorem.2.1 specD2 (by rfl),
   C5_theorem.2.2.2.2.2 [specD1, specD2, specD3] (fun _ => false) (by rfl)⟩

/-- C6, counterexample to the claim as stated: the report
`[0, 0, 0x52, 0x52, 0x51, 0, 0, 0, 0]` has the same arrow usage byte 0x52 at
indices 2 and 3, yet decodes to two directions, because index 4 holds
another arrow code that both windows also pick up. -/
theorem C6_counterexample :
    decodeReport [0, 0, 0x52, 0x52, 0x51, 0, 0, 0, 0] = {"up", "down"}
    ∧ decodeReport [0, 0, 0x52, 0x52, 0x51, 0, 0, 0, 0] ≠ {"up"} := by
  constructor
  · decide
  · decide

/-- C6 (amended): the decoder is the set union of the two windows at offsets
0 and 1 (indices 2..7 and 3..8), appending a zero or non-arrow byte to a
window never changes the decoded set, and a report whose bytes at indices 2
and 3 are the same arrow usage code and whose bytes at indices 4..8 are all
zero or non-arrow codes decodes to exactly that one direction. -/
theorem C6_theorem :
    (∀ buf : List Nat, decodeReport buf
        = addUsages ∅ ((buf.drop 2).take 6) ∪ addUsages ∅ ((buf.drop 3).take 6))
    ∧ (∀ (acc : Finset String) (w : List Nat) (u : Nat),
        u = 0 ∨ USAGE_ARROW_MAP u = none → addUsages acc (w ++ [u]) = addUsages acc w)
    ∧ (∀ (buf : List Nat) (u : Nat) (name : String),
        USAGE_ARROW_MAP u = some name → buf[2]? = some u → buf[3]? = some u →
        windowRestClean buf = true → decodeReport buf = {name}) := by
  refine ⟨?_, ?_, ?_⟩
  · intro buf
    unfold decodeReport
    rw [addUsages_eq_union]
  · intro acc w u hu
    unfold addUsages
    rw [List.foldl_append, List.foldl_cons, List.foldl_nil]
    rcases hu with rfl | hmap
    · simp
    · by_cases h0 : u = 0 <;> simp [h0, hmap]
  · intro buf u name hmap h2 h3 hclean
    ext n
    rw [mem_decodeReport]
    simp only [Finset.mem_singleton]
    constructor
    · rintro ⟨v, hv | hv, hz, hm⟩
      · rcases mem_window buf 2 v hv with ⟨j, hj, hidx⟩
        interval_cases j
        · norm_num at hidx
          rw [h2] at hidx
          have hvu : u = v := Option.some_inj.mp hidx
          rw [← hvu, hmap] at hm
          exact (Option.some_inj.mp hm).symm
        · norm_num at hidx
          rw [h3] at hidx
          have hvu : u = v := Option.some_inj.mp hidx
          rw [← hvu, hmap] at hm
          exact (Option.some_inj.mp hm).symm
        · rcases windowRestClean_spec buf hclean 0 (by norm_num) v (by simpa using hidx) with h | h
          · exact absurd h hz
          · rw [h] at hm
            exact Option.noConfusion hm
        · rcases windowRestClean_spec buf hclean 1 (by norm_num) v (by simpa using hidx) with h | h
          · exact absurd h hz
          · rw [h] at hm
            exact Option.noConfusion hm
        · rcases windowRestClean_spec buf hclean 2 (by norm_num) v (by simpa using hidx) with h | h
          · exact absurd h hz
          · rw [h] at hm
            exact Option.noConfusion hm
        · rcases windowRestClean_spec buf hclean 3 (by norm_num) v (by simpa using hidx) with h | h
          · exact absurd h hz
          · rw [h] at hm
            exact Option.noConfusion hm
      · rcases mem_window buf 3 v hv with ⟨j, hj, hidx⟩
        interval_cases j
        · norm_num at hidx
          rw [h3] at hidx
          have hvu : u = v := Option.some_inj.mp hidx
          rw [← hvu, hmap] at hm
          exact (Option.some_inj.mp hm).symm
        · rcases windowRestClean_spec buf hclean 0 (by norm_num) v (by simpa using hidx) with h | h
          · exact absurd h hz
          · rw [h] at hm
            exact Option.noConfusion hm
        · rcases windowRestClean_spec buf hclean 1 (by norm_num) v (by simpa using hidx) with h | h
          · exact absurd h hz
          · rw [h] at hm
            exact Option.noConfusion hm
        · rcases windowRestClean_spec buf hclean 2 (by norm_num) v (by simpa using hidx) with h | h
          · exact absurd h hz
          · rw [h] at hm
            exact Option.noConfusion hm
        · rcases windowRestClean_spec buf hclean 3 (by norm_num) v (by simpa using hidx) with h | h
          · exact absurd h hz
          · rw [h] at hm
            exact Option.noConfusion hm
        · rcases windowRestClean_spec buf hclean 4 (by norm_num) v (by simpa using hidx) with h | h
          · exact absurd h hz
          · rw [h] at hm
            exact Option.noConfusion hm
    · rintro rfl
      have hu0 : u ∈ (buf.drop 2).take 6 := by
        apply List.mem_iff_getElem?.mpr
        refine ⟨0, ?_⟩
        rw [List.getElem?_take_of_lt (by norm_num), List.getElem?_drop]
        simpa using h2
      have hz : ¬ u = 0 := by
        intro h0
        rw [h0] at hmap
        exact Option.noConfusion hmap
      exact ⟨u, Or.inl hu0, hz, hmap⟩

/-- C6 witness: appending a non-arrow byte changes nothing, and the
ambiguous-offset report `[0, 0, 0x52, 0x52, 0, 0, 0, 0, 0]` decodes to
exactly `up`. -/
theorem C6_witness :
    addUsages ∅ ([0x52] ++ [0]) = addUsages ∅ [0x52]
    ∧ decodeReport [0, 0, 0x52, 0x52, 0, 0, 0, 0, 0] = {"up"} :=
  ⟨C6_theorem.2.1 ∅ [0x52] 0 (Or.inl rfl),
   C6_theorem.2.2 [0, 0, 0x52, 0x52, 0, 0, 0, 0, 0] 0x52 "up" rfl rfl rfl (by decide)⟩

/-- C7: feeding the terminal engine only `ESC` then `[` and then a readiness
timeout more than 100 ms after the `ESC` clears the pending buffer without
enqueuing any event, and a subsequent complete `ESC [ A` sequence decodes
normally to a single down-edge for `up`. -/
theorem C7_theorem (t0 t1 t2 t3 t4 t5 : ℚ) (h01 : t0 ≤ t1) (h12 : 1/10 < t2 - t1) :
    (stdinRun [.byte '\x1b' t0, .byte '[' t1, .tick t2]).buffer = []
    ∧ (stdinRun [.byte '\x1b' t0, .byte '[' t1, .tick t2]).escStart = none
    ∧ (stdinRun [.byte '\x1b' t0, .byte '[' t1, .tick t2]).events = []
    ∧ (stdinRunFrom (stdinRun [.byte '\x1b' t0, .byte '[' t1, .tick t2])
        [.byte '\x1b' t3, .byte '[' t4, .byte 'A' t5]).events = [⟨"up", true, t5⟩] := by
  have hA : stdinRun [.byte '\x1b' t0, .byte '[' t1]
      = { stdinInit with buffer := ['\x1b', '['], escStart := some t0 } := rfl
  have hC : stdinRun [.byte '\x1b' t0, .byte '[' t1, .tick t2] = stdinInit := by
    show stdinStep (stdinRun [.byte '\x1b' t0, .byte '[' t1]) (.tick t2) = stdinInit
    rw [hA, stdinStep_tick_timeout _ t2 t0 rfl rfl (by linarith)]
    rfl
  refine ⟨by rw [hC]; rfl, by rw [hC]; rfl, by rw [hC]; rfl, ?_⟩
  rw [hC]
  rfl

/-- C7 witness: the timeout theorem at concrete times 0, 1/100, 2/10 and a
resumed sequence at time 1. -/
theorem C7_witness :
    (stdinRun [.byte '\x1b' 0, .byte '[' (1/100), .tick (2/10)]).buffer = []
    ∧ (stdinRun [.byte '\x1b' 0, .byte '[' (1/100), .tick (2/10)]).escStart = none
    ∧ (stdinRun [.byte '\x1b' 0, .byte '[' (1/100), .tick (2/10)]).events = []
    ∧ (stdinRunFrom (stdinRun [.byte '\x1b' 0, .byte '[' (1/100), .tick (2/10)])
        [.byte '\x1b' 1, .byte '[' 1, .byte 'A' 1]).events = [⟨"up", true, 1⟩] :=
  C7_theorem 0 (1/100) (2/10) 1 1 1 (by norm_num) (by norm_num)

/-- C8: the relay sender starts with no connection; a send while
disconnected first attempts to connect and silently drops the event when the
connect fails; a send failure on a live connection closes and drops it
without reconnecting within that call; and every send of a disconnected
sender whose connects keep failing is silently lost. -/
theorem C8_theorem :
    proxyInit.connected = false
    ∧ (∀ so : Bool, proxySend { connected := false } false so = ({ connected := false }, false))
    ∧ (∀ cc : Bool, proxySend { connected := true } cc false = ({ connected := false }, false))
    ∧ (∀ es : List Bool,
        (proxyRun { connected := false } (es.map (fun so => (false, so)))).2
          = es.map (fun _ => false)) := by
  refine ⟨rfl, ?_, ?_, ?_⟩
  · intro so
    cases so <;> rfl
  · intro cc
    cases cc <;> rfl
  · intro es
    induction es with
    | nil => rfl
    | cons e es ih =>
      cases e <;> simp [proxyRun, proxySend, ih]

/-- C9: whenever the bridge's buffer extended by the incoming byte ends with
a recognized arrow escape sequence, that byte causes exactly two sends for
the decoded direction — down then up, in that order — and clears the byte
buffer; reading the quit byte `q` marks the loop done, and a done loop
consumes no further bytes. -/
theorem C9_theorem :
    (∀ (st : BridgeState) (b : Nat) (name : String), st.done = false →
        findArrow (st.buf ++ [b]) = some name →
        bridgeStep st b
          = { buf := [], sent := st.sent ++ [(name, true), (name, false)], done := false })
    ∧ (∀ st : BridgeState, (bridgeStep st 0x71).done = true)
    ∧ (∀ (st : BridgeState) (bs : List Nat), st.done = true → bridgeRun st bs = st) := by
  refine ⟨?_, ?_, ?_⟩
  · intro st b name hdone hfind
    have hb : ¬ b = 0x71 := by
      intro hbq
      subst hbq
      have hl := findArrow_last _ _ hfind
      rw [List.getLast?_concat] at hl
      rcases hl with hx | hx | hx | hx <;> exact absurd (Option.some_inj.mp hx) (by decide)
    rw [bridgeStep.eq_def]
    dsimp only
    rw [hfind]
    dsimp only
    rw [if_neg hb, ← hdone]
  · intro st
    rw [bridgeStep.eq_def]
    dsimp only
    rcases hf : findArrow (st.buf ++ [0x71]) with _ | nm <;> rfl
  · intro st bs hd
    cases bs with
    | nil => rfl
    | cons b rest =>
      rw [bridgeRun, if_pos hd]

/-- C9 witness: the escape sequence `ESC [ A` arriving after `ESC [` sends
down then up for `up` and clears the buffer; a done bridge ignores input. -/
theorem C9_witness :
    bridgeStep { buf := [0x1b, 0x5b], sent := [], done := false } 0x41
      = { buf := [], sent := [("up", true), ("up", false)], done := false }
    ∧ bridgeRun { buf := [], sent := [], done := true } [0x1b, 0x5b, 0x41]
      = { buf := [], sent := [], done := true } :=
  ⟨C9_theorem.1 { buf := [0x1b, 0x5b], sent := [], done := false } 0x41 "up" rfl rfl,
   C9_theorem.2.2 { buf := [], sent := [], done := true } [0x1b, 0x5b, 0x41] rfl⟩

/-- C10: for both engines, `is_pressed` and `pressed_duration` are total on
arbitrary key strings: a string that is not one of the four directions is
never pressed and always has duration 0, on every reachable state. -/
theorem C10_theorem (s : String) (hs : s ∉ dirList) :
    (∀ (rs : List HIDRead) (now : ℚ),
        isPressedKS (hidRun rs).keyStates s = false
        ∧ pressedDurationKS (hidRun rs).keyStates (hidRun rs).keyPressTime now s = 0)
    ∧ (∀ (is : List StdinInput) (now : ℚ),
        isPressedKS (stdinRun is).keyStates s = false
        ∧ pressedDurationKS (stdinRun is).keyStates (stdinRun is).keyPressTime now s = 0) := by
  constructor
  · intro rs now
    have hinv := hidInv_run rs
    have h1 : isPressedKS (hidRun rs).keyStates s = false := by
      unfold isPressedKS
      apply dictGet_not_mem
      rw [hinv.domS]
      exact hs
    refine ⟨h1, ?_⟩
    unfold pressedDurationKS
    rw [h1]
    simp
  · intro is now
    have hinv := stdinInv_run is
    have h1 : isPressedKS (stdinRun is).keyStates s = false := by
      unfold isPressedKS
      apply dictGet_not_mem
      rw [hinv.domS]
      exact hs
    refine ⟨h1, ?_⟩
    unfold pressedDurationKS
    rw [h1]
    simp

/-- C10 witness: the key `"space"` is not a direction; on freshly started
engines it is not pressed and has duration 0. -/
theorem C10_witness :
    isPressedKS (hidRun []).keyStates spaceKey = false
    ∧ pressedDurationKS (hidRun []).keyStates (hidRun []).keyPressTime 5 spaceKey = 0
    ∧ isPressedKS (stdinRun []).keyStates spaceKey = false :=
  ⟨((C10_theorem spaceKey (by decide)).1 [] 5).1,
   ((C10_theorem spaceKey (by decide)).1 [] 5).2,
   ((C10_theorem spaceKey (by decide)).2 [] 5).1⟩
